import Mathlib

/-!
Verification of the mcumgr-client core against its specification.

The crate's `src/lib.rs` declares the modules `default`, `image`, `nmp_hdr`,
`test_serial_port` and `transfer` and re-exports `reset`, `erase`, `list`,
`test`, `upload` and `SerialSpecs`; the bodies of those modules are not in
the source tree, so the protocol engine (header codec, checksum, frame
codec, transport session, upload orchestrator, reset command) is modelled
here from the specification's words.  The command-line layer (`src/main.rs`)
is present and is embedded directly from the source.

Bytes are modelled as `Nat` values below 256, 16-bit quantities as `Nat`
values below 65536; overflow is made explicit with `% 256` / `% 65536`.
-/

/-! ## Header codec (`nmp_hdr` module) -/

/-- Modelled from the spec: the operation kind of a management-message
header, one of read-request, read-response, write-request, write-response
(`nmp_hdr` module, absent from `src/`). -/
inductive NmpOp : Type where
  | readReq
  | readRsp
  | writeReq
  | writeRsp
deriving DecidableEq, Repr

/-- The 3-bit wire value of an operation kind. -/
def NmpOp.toNat : NmpOp → Nat
  | .readReq => 0
  | .readRsp => 1
  | .writeReq => 2
  | .writeRsp => 3

/-- Parse a 3-bit kind value; values 4..7 are invalid operation-kind bits. -/
def NmpOp.ofNat? : Nat → Option NmpOp
  | 0 => some .readReq
  | 1 => some .readRsp
  | 2 => some .writeReq
  | 3 => some .writeRsp
  | _ => none

/-- Modelled from the spec: the management-message header (`nmp_hdr` module,
absent from `src/`): operation kind, flags, body length (unsigned 16-bit),
group id (unsigned 16-bit), sequence id (unsigned 8-bit), command id
(unsigned 8-bit). -/
structure NmpHdr : Type where
  op : NmpOp
  flags : Nat
  len : Nat
  group : Nat
  seq : Nat
  id : Nat
deriving DecidableEq, Repr

/-- A header whose fields are all in range: 5-bit flags (the spec packs the
kind into 3 bits and the flags into 5 bits of a shared byte), 16-bit length
and group, 8-bit sequence and command ids. -/
def NmpHdr.valid (h : NmpHdr) : Prop :=
  h.flags < 32 ∧ h.len < 65536 ∧ h.group < 65536 ∧ h.seq < 256 ∧ h.id < 256

instance (h : NmpHdr) : Decidable h.valid := by
  unfold NmpHdr.valid; infer_instance

/-- Modelled from the spec: `encode(header) -> bytes[8]` (`nmp_hdr` module,
absent from `src/`).  Fields are packed big-endian; the operation kind and
the flags share the first byte (3 bits kind, 5 bits flags).  The spec fixes
the encoding at exactly 8 bytes while the listed field widths (a shared
byte, two 16-bit fields, two 8-bit fields) fill only 7, so the final byte
is kept reserved as zero. -/
def NmpHdr.encode (h : NmpHdr) : List Nat :=
  [h.op.toNat * 32 + h.flags % 32,
   h.len / 256 % 256, h.len % 256,
   h.group / 256 % 256, h.group % 256,
   h.seq % 256, h.id % 256, 0]

/-- Modelled from the spec: `decode(bytes) -> Header | fails` (`nmp_hdr`
module, absent from `src/`).  Fails when the input is shorter than 8 bytes
or when the operation-kind bits are invalid. -/
def NmpHdr.decode (bs : List Nat) : Option NmpHdr :=
  match bs with
  | b0 :: b1 :: b2 :: b3 :: b4 :: b5 :: b6 :: _b7 :: _ =>
    match NmpOp.ofNat? (b0 / 32 % 8) with
    | some op => some ⟨op, b0 % 32, b1 * 256 + b2, b3 * 256 + b4, b5, b6⟩
    | none => none
  | _ => none

/-! ## Command-line layer (`src/main.rs`, embedded from the source) -/

/-- The `Commands` subcommand enum of `src/main.rs` (lines 68-97). -/
inductive Commands : Type where
  | list
  | reset
  | upload (filename : String) (slot : Nat)
  | test (hash : String) (confirm : Option Bool)
  | erase (slot : Option Nat)
deriving DecidableEq, Repr

/-- The `Cli` argument structure of `src/main.rs` (lines 15-52). -/
structure Cli : Type where
  device : String
  verbose : Bool
  initial_timeout_s : Nat
  subsequent_timeout_ms : Nat
  nb_retry : Nat
  linelength : Nat
  mtu : Nat
  baudrate : Nat
  command : Commands
deriving DecidableEq, Repr

/-- Modelled from the spec: `SerialSpecs` (defined in the `transfer` module,
absent from `src/`): device path, initial timeout (seconds), subsequent
timeout (milliseconds), retry count, maximum encoded line length, MTU per
request, baud rate.  The field list also matches the struct literal in the
`From<&Cli>` impl of `src/main.rs` (lines 54-66). -/
structure SerialSpecs : Type where
  device : String
  initial_timeout_s : Nat
  subsequent_timeout_ms : Nat
  nb_retry : Nat
  linelength : Nat
  mtu : Nat
  baudrate : Nat
deriving DecidableEq, Repr

/-- The `From<&Cli> for SerialSpecs` conversion of `src/main.rs`
(lines 54-66), embedded field for field from the source. -/
def SerialSpecs.fromCli (cli : Cli) : SerialSpecs :=
  { device := cli.device
    initial_timeout_s := cli.initial_timeout_s
    subsequent_timeout_ms := cli.subsequent_timeout_ms
    nb_retry := cli.nb_retry
    linelength := cli.linelength
    mtu := cli.mtu
    baudrate := cli.baudrate }

/-- One hexadecimal digit, as the `hex` crate accepts them: `0-9`, `a-f`,
`A-F`. -/
def hexDigit? (c : Char) : Option Nat :=
  if 48 ≤ c.toNat ∧ c.toNat ≤ 57 then some (c.toNat - 48)
  else if 97 ≤ c.toNat ∧ c.toNat ≤ 102 then some (c.toNat - 87)
  else if 65 ≤ c.toNat ∧ c.toNat ≤ 70 then some (c.toNat - 55)
  else none

/-- `hex::decode` on the character list of the input string: consumes two
hex digits per output byte, fails on an odd-length input or on any
non-hex-digit character. -/
def hexDecodeChars : List Char → Option (List Nat)
  | [] => some []
  | c1 :: c2 :: rest =>
    match hexDigit? c1, hexDigit? c2 with
    | some hi, some lo => (hexDecodeChars rest).map (fun bs => (hi * 16 + lo) :: bs)
    | _, _ => none
  | _ => none

/-- `hex::decode` on a string. -/
def hexDecode (s : String) : Option (List Nat) :=
  hexDecodeChars s.toList

/-- The observable outcome of the `Commands::Test` match arm: either the
`?` operator propagates the hex-decoding error before `test` is reached,
or `test` is called with the decoded bytes and the confirm flag. -/
inductive TestOutcome : Type where
  | hexError
  | called (bytes : List Nat) (confirm : Option Bool)
deriving DecidableEq, Repr

/-- The `Commands::Test` arm of `src/main.rs` (lines 304-306):
`test(&specs, hex::decode(hash)?, *confirm)`, embedded from the source. -/
def runTestCommand (hash : String) (confirm : Option Bool) : TestOutcome :=
  match hexDecode hash with
  | none => .hexError
  | some bytes => .called bytes confirm

/-! ## Checksum (CRC-16/XMODEM, `transfer` module) -/

namespace Crc16

/-- Modelled from the spec: one shift step of the bitwise CRC-16 with the
CCITT polynomial 0x1021 = 4129 (checksum code absent from `src/`): shift
left one bit, and when the bit shifted out (bit 15) was set, XOR in the
polynomial; the state is kept to 16 bits. -/
def step (crc : Nat) : Nat :=
  if crc.testBit 15 then ((crc <<< 1) ^^^ 4129) % 65536 else (crc <<< 1) % 65536

/-- Modelled from the spec: feeding one input byte into the CRC state:
XOR the byte into the high 8 bits, then run 8 shift steps. -/
def updateByte (crc b : Nat) : Nat :=
  step^[8] (crc ^^^ (b % 256) <<< 8)

/-- Modelled from the spec: `compute(bytes) -> u16`, CRC-16 with
polynomial 0x1021, initial value 0, no final XOR, over the whole buffer. -/
def compute (bs : List Nat) : Nat :=
  bs.foldl updateByte 0

end Crc16

/-! ## Frame codec (`transfer` module) -/

namespace FrameCodec

/-- The base64 alphabet: the ASCII code of the character for a 6-bit
value. -/
def b64EncChar (v : Nat) : Nat :=
  if v < 26 then v + 65
  else if v < 52 then v + 71
  else if v < 62 then v - 4
  else if v = 62 then 43
  else 47

/-- The 6-bit value of a base64 ASCII character, `none` for characters
outside the alphabet (including the pad character 61, `=`). -/
def b64DecChar (c : Nat) : Option Nat :=
  if 65 ≤ c ∧ c ≤ 90 then some (c - 65)
  else if 97 ≤ c ∧ c ≤ 122 then some (c - 71)
  else if 48 ≤ c ∧ c ≤ 57 then some (c + 4)
  else if c = 43 then some 62
  else if c = 47 then some 63
  else none

/-- Standard base64 encoding of a byte list to an ASCII code list: three
bytes become four characters, a trailing group of one or two bytes is
padded with `=` (61). -/
def b64Encode : List Nat → List Nat
  | [] => []
  | [a] => [b64EncChar (a / 4), b64EncChar (a % 4 * 16), 61, 61]
  | [a, b] =>
    [b64EncChar (a / 4), b64EncChar (a % 4 * 16 + b / 16),
     b64EncChar (b % 16 * 4), 61]
  | a :: b :: c :: rest =>
    b64EncChar (a / 4) :: b64EncChar (a % 4 * 16 + b / 16) ::
      b64EncChar (b % 16 * 4 + c / 64) :: b64EncChar (c % 64) :: b64Encode rest

/-- Standard base64 decoding, the inverse of `b64Encode`; fails on
characters outside the alphabet, on a length that is not a multiple of
four, or on padding anywhere but the final group. -/
def b64Decode : List Nat → Option (List Nat)
  | [] => some []
  | c1 :: c2 :: c3 :: c4 :: rest =>
    match b64DecChar c1, b64DecChar c2 with
    | some v1, some v2 =>
      if c3 = 61 then
        if c4 = 61 ∧ rest = [] then some [v1 * 4 + v2 / 16] else none
      else
        match b64DecChar c3 with
        | some v3 =>
          if c4 = 61 then
            if rest = [] then some [v1 * 4 + v2 / 16, v2 % 16 * 16 + v3 / 4]
            else none
          else
            match b64DecChar c4 with
            | some v4 =>
              (b64Decode rest).map (fun bs =>
                (v1 * 4 + v2 / 16) :: (v2 % 16 * 16 + v3 / 4) ::
                  (v3 % 4 * 64 + v4) :: bs)
            | none => none
        | none => none
    | _, _ => none
  | _ => none

/-- Divide a list into consecutive chunks of `k` elements (the final chunk
may be shorter); every chunk takes at least one element, so the division
terminates even for `k = 0`. -/
def chunksOf (k : Nat) : List Nat → List (List Nat)
  | [] => []
  | a :: rest => (a :: rest.take (k - 1)) :: chunksOf k (rest.drop (k - 1))
termination_by l => l.length
decreasing_by
  simp only [List.length_drop, List.length_cons]
  omega

/-- Modelled from the spec: `split(header, body_bytes)` (`transfer` module,
absent from `src/`): serialize header + body, prefix the whole byte stream
with its 2-byte big-endian total length, base64-encode, and divide the
text into newline-terminated lines whose total size — the 2-byte marker
(`06 09` on the first line, `04 14` on continuations), the base64 chunk,
and the newline — never exceeds the configured maximum line length. -/
def split (linelength : Nat) (hdr body : List Nat) : List (List Nat) :=
  let data := hdr ++ body
  let stream := data.length / 256 % 256 :: data.length % 256 :: data
  match chunksOf (linelength - 3) (b64Encode stream) with
  | [] => []
  | c :: cs => ([6, 9] ++ c ++ [10]) :: cs.map (fun c2 => [4, 20] ++ c2 ++ [10])

/-- Strip one received line: check its 2-byte marker and trailing newline
and return the base64 text between them. -/
def stripLine (marker : List Nat) (line : List Nat) : Option (List Nat) :=
  if line.take 2 = marker ∧ line.getLast? = some 10 then
    some (line.drop 2).dropLast
  else none

/-- Modelled from the spec: `join(lines)` (`transfer` module, absent from
`src/`): strip the markers, concatenate the base64 text of all lines of
the frame, decode, check the declared length prefix against the decoded
length, and return the header/body split at the 8-byte boundary;
fails on a base64 error or a length mismatch. -/
def join (lines : List (List Nat)) : Option (List Nat × List Nat) :=
  match lines with
  | [] => none
  | first :: rest =>
    match stripLine [6, 9] first, rest.mapM (stripLine [4, 20]) with
    | some c0, some cs =>
      match b64Decode (c0 ++ cs.flatten) with
      | some (hi :: lo :: data) =>
        if data.length = hi * 256 + lo then some (data.take 8, data.drop 8)
        else none
      | _ => none
    | _, _ => none

end FrameCodec

/-! ## Transport session (`transfer` module) -/

/-- Modelled from the spec: the error taxonomy of the core (the modules
implementing it are absent from `src/`). -/
inductive NmpError : Type where
  | malformedHeader
  | invalidEncoding
  | truncatedFrame
  | checksumMismatch
  | sequenceMismatch
  | noResponse
  | deviceError
deriving DecidableEq, Repr

/-- Modelled from the spec: a decoded reply as the session sees it — the
sequence id carried by its header and its body bytes. -/
structure NmpReply : Type where
  seq : Nat
  body : List Nat
deriving DecidableEq, Repr

/-- The observable outcome of one `send_receive` call: the result, the
number of write-then-read attempts performed, and the sequence ids of the
frames written (one per attempt, in order). -/
structure SendReceiveResult : Type where
  result : Except NmpError NmpReply
  attempts : Nat
  sent : List Nat
deriving Repr

/-- Modelled from the spec: the retry loop of `send_receive` (`transfer`
module, absent from `src/`).  The transport is abstracted as a function
from the attempt index to the optional decoded reply of that attempt
(`none` is a read timeout).  Each attempt writes the identical frame
carrying `seq`, then reads; a timeout or a reply whose sequence id does
not match `seq` consumes one attempt of the budget and resends; a matching
reply succeeds; an exhausted budget fails with `NoResponse`. -/
def sendReceiveGo (tr : Nat → Option NmpReply) (seq : Nat) :
    Nat → Nat → SendReceiveResult
  | 0, used => ⟨.error .noResponse, used, []⟩
  | Nat.succ n, used =>
    match tr used with
    | none =>
      let r := sendReceiveGo tr seq n (used + 1)
      ⟨r.result, r.attempts, seq :: r.sent⟩
    | some rep =>
      if rep.seq = seq then ⟨.ok rep, used + 1, [seq]⟩
      else
        let r := sendReceiveGo tr seq n (used + 1)
        ⟨r.result, r.attempts, seq :: r.sent⟩

/-- Modelled from the spec: `send_receive` with retry budget `nbRetry`. -/
def send_receive (tr : Nat → Option NmpReply) (seq nbRetry : Nat) :
    SendReceiveResult :=
  sendReceiveGo tr seq nbRetry 0

/-- Modelled from the spec: the session's sequence-id counter advances
monotonically to the next logical request, wrapping modulo 256. -/
def nextSeq (s : Nat) : Nat := (s + 1) % 256

/-! ## Reset command (`default` module) -/

/-- Modelled from the spec: the reset command (`default` module, absent
from `src/`): send the reset request, then tolerate the read failing
immediately afterward — the device reboots and stops answering — treating
it as expected success provided the write itself succeeded. -/
def reset (writeResult : Except NmpError Unit)
    (readResult : Except NmpError NmpReply) : Except NmpError Unit :=
  match writeResult with
  | .error e => .error e
  | .ok _ =>
    match readResult with
    | .error _ => .ok ()
    | .ok _ => .ok ()

/-! ## Upload orchestrator (`image` module) -/

/-- Modelled from the spec: the upload orchestrator loop (`image` module,
absent from `src/`).  While `off < total`, slice up to `cap` bytes
(`cap` is the MTU-derived per-chunk bound) starting at `off`, send the
chunk, and adopt the device-returned next offset as the new offset — the
device is authoritative.  The device is abstracted as a function from the
(offset, chunk length) sent to the optional next-expected offset (`none`
is an unretryable transport failure).  Returns the final offset (`some`
on successful termination with `off = total` reached, `none` otherwise)
together with the `(offset, length)` chunks sent, in order. -/
def uploadLoop (device : Nat → Nat → Option Nat) (cap total : Nat) :
    Nat → Nat → Option Nat × List (Nat × Nat)
  | 0, _off => (none, [])
  | Nat.succ fuel, off =>
    if total ≤ off then (some off, [])
    else
      match device off (min cap (total - off)) with
      | none => (none, [(off, min cap (total - off))])
      | some next =>
        ((uploadLoop device cap total fuel next).1,
         (off, min cap (total - off)) :: (uploadLoop device cap total fuel next).2)

/-! ## Theorems -/

theorem Nat.xor_mod_two_pow (a b n : Nat) :
    (a ^^^ b) % 2 ^ n = a % 2 ^ n ^^^ b % 2 ^ n := by
  apply Nat.eq_of_testBit_eq
  intro i
  simp [Nat.testBit_mod_two_pow, Nat.testBit_xor, Bool.and_xor_distrib_left]

theorem Nat.xor_left_cancel (a b c : Nat) (h : a ^^^ b = a ^^^ c) : b = c := by
  have h2 := congrArg (a ^^^ ·) h
  simpa [← Nat.xor_assoc, Nat.xor_self, Nat.zero_xor] using h2

theorem Crc16.step_lt (c : Nat) : Crc16.step c < 65536 := by
  unfold Crc16.step
  split <;> exact Nat.mod_lt _ (by norm_num)

theorem Crc16.testBit15_false_lt (c : Nat) (hc : c < 65536)
    (h : c.testBit 15 = false) : c < 32768 := by
  rw [Nat.testBit_to_div_mod] at h
  simp only [decide_eq_false_iff_not] at h
  omega

theorem Crc16.testBit15_true_ge (c : Nat) (hc : c < 65536)
    (h : c.testBit 15 = true) : 32768 ≤ c := by
  rw [Nat.testBit_to_div_mod] at h
  simp only [decide_eq_true_eq] at h
  omega

theorem Crc16.shift_xor_poly_odd (x : Nat) :
    ((x <<< 1) ^^^ 4129) % 65536 % 2 = 1 := by
  rw [Nat.mod_mod_of_dvd _ (by norm_num : (2 : Nat) ∣ 65536)]
  rw [show (2 : Nat) = 2 ^ 1 from rfl, Nat.xor_mod_two_pow, Nat.shiftLeft_eq]
  have hx : x * 2 ^ 1 % 2 ^ 1 = 0 := by omega
  rw [hx]
  decide

theorem Crc16.shift_even (x : Nat) : (x <<< 1) % 65536 % 2 = 0 := by
  rw [Nat.shiftLeft_eq]
  omega

theorem Crc16.step_inj (c c' : Nat) (hc : c < 65536) (hc' : c' < 65536)
    (h : Crc16.step c = Crc16.step c') : c = c' := by
  have e : (65536 : Nat) = 2 ^ 16 := rfl
  have e4129 : (4129 : Nat) % 2 ^ 16 = 4129 := by norm_num
  unfold Crc16.step at h
  cases h1 : c.testBit 15 <;> cases h2 : c'.testBit 15 <;> simp [h1, h2] at h
  · -- both top bits clear
    have b1 := Crc16.testBit15_false_lt c hc h1
    have b2 := Crc16.testBit15_false_lt c' hc' h2
    rw [Nat.shiftLeft_eq, Nat.shiftLeft_eq] at h
    omega
  · -- c clear, c' set: parity contradiction
    have e1 := Crc16.shift_even c
    have e2 := Crc16.shift_xor_poly_odd c'
    rw [h] at e1
    omega
  · -- c set, c' clear: parity contradiction
    have e1 := Crc16.shift_xor_poly_odd c
    have e2 := Crc16.shift_even c'
    rw [h] at e1
    omega
  · -- both top bits set
    have b1 := Crc16.testBit15_true_ge c hc h1
    have b2 := Crc16.testBit15_true_ge c' hc' h2
    rw [e, Nat.xor_mod_two_pow, Nat.xor_mod_two_pow, e4129] at h
    rw [Nat.xor_comm _ 4129, Nat.xor_comm _ 4129] at h
    have h3 := Nat.xor_left_cancel _ _ _ h
    rw [Nat.shiftLeft_eq, Nat.shiftLeft_eq] at h3
    omega

theorem Crc16.iterate_step_inj (n : Nat) (c c' : Nat)
    (hc : c < 65536) (hc' : c' < 65536)
    (h : Crc16.step^[n] c = Crc16.step^[n] c') : c = c' := by
  induction n generalizing c c' with
  | zero => simpa using h
  | succ n ih =>
    rw [Function.iterate_succ_apply, Function.iterate_succ_apply] at h
    exact Crc16.step_inj c c' hc hc'
      (ih _ _ (Crc16.step_lt c) (Crc16.step_lt c') h)

theorem Crc16.updateByte_lt (c b : Nat) : Crc16.updateByte c b < 65536 := by
  unfold Crc16.updateByte
  rw [show (8 : Nat) = 7 + 1 from rfl, Function.iterate_succ_apply']
  exact Crc16.step_lt _

theorem Crc16.updateByte_inj (c c' b : Nat) (hc : c < 65536) (hc' : c' < 65536)
    (h : Crc16.updateByte c b = Crc16.updateByte c' b) : c = c' := by
  unfold Crc16.updateByte at h
  have hb : (b % 256) <<< 8 < 65536 := by
    rw [Nat.shiftLeft_eq]
    have : b % 256 < 256 := Nat.mod_lt _ (by norm_num)
    omega
  have e : (65536 : Nat) = 2 ^ 16 := rfl
  have h1 : c ^^^ (b % 256) <<< 8 = c' ^^^ (b % 256) <<< 8 :=
    Crc16.iterate_step_inj 8 _ _
      (by rw [e]; exact Nat.xor_lt_two_pow (e ▸ hc) (e ▸ hb))
      (by rw [e]; exact Nat.xor_lt_two_pow (e ▸ hc') (e ▸ hb)) h
  have h2 : (b % 256) <<< 8 ^^^ c = (b % 256) <<< 8 ^^^ c' := by
    rw [Nat.xor_comm _ c, Nat.xor_comm _ c']; exact h1
  exact Nat.xor_left_cancel _ _ _ h2

theorem Crc16.foldl_ne (l : List Nat) (c c' : Nat)
    (hc : c < 65536) (hc' : c' < 65536) (h : c ≠ c') :
    l.foldl Crc16.updateByte c ≠ l.foldl Crc16.updateByte c' := by
  induction l generalizing c c' with
  | nil => simpa using h
  | cons b t ih =>
    simp only [List.foldl_cons]
    exact ih _ _ (Crc16.updateByte_lt c b) (Crc16.updateByte_lt c' b)
      (fun he => h (Crc16.updateByte_inj c c' b hc hc' he))

theorem Crc16.updateByte_ne_of_byte_ne (c b b' : Nat) (hc : c < 65536)
    (hb : b % 256 ≠ b' % 256) :
    Crc16.updateByte c b ≠ Crc16.updateByte c b' := by
  intro h
  unfold Crc16.updateByte at h
  have e : (65536 : Nat) = 2 ^ 16 := rfl
  have hlt : ∀ x : Nat, (x % 256) <<< 8 < 65536 := by
    intro x
    rw [Nat.shiftLeft_eq]
    have : x % 256 < 256 := Nat.mod_lt _ (by norm_num)
    omega
  have h1 := Crc16.iterate_step_inj 8 _ _
    (by rw [e]; exact Nat.xor_lt_two_pow (e ▸ hc) (e ▸ hlt b))
    (by rw [e]; exact Nat.xor_lt_two_pow (e ▸ hc) (e ▸ hlt b')) h
  have h2 := Nat.xor_left_cancel c _ _ h1
  rw [Nat.shiftLeft_eq, Nat.shiftLeft_eq] at h2
  exact hb (by omega)

theorem Crc16.foldl_set_ne (l : List Nat) (i : Nat) (v c : Nat)
    (hc : c < 65536) (hi : i < l.length)
    (hv : v % 256 ≠ (l.get ⟨i, hi⟩) % 256) :
    (l.set i v).foldl Crc16.updateByte c ≠ l.foldl Crc16.updateByte c := by
  induction l generalizing i c with
  | nil => exact absurd hi (by simp)
  | cons b t ih =>
    cases i with
    | zero =>
      simp only [List.set_cons_zero, List.foldl_cons]
      exact Crc16.foldl_ne t _ _ (Crc16.updateByte_lt c v) (Crc16.updateByte_lt c b)
        (Crc16.updateByte_ne_of_byte_ne c v b hc hv)
    | succ i =>
      simp only [List.set_cons_succ, List.foldl_cons]
      exact ih i (Crc16.updateByte c b) (Crc16.updateByte_lt c b)
        (by simpa using hi) hv

theorem Crc16.compute_lt_aux (l : List Nat) (c : Nat) (hc : c < 65536) :
    l.foldl Crc16.updateByte c < 65536 := by
  induction l generalizing c with
  | nil => simpa using hc
  | cons b t ih => exact ih (Crc16.updateByte c b) (Crc16.updateByte_lt c b)

/-- C8: the checksum is a pure deterministic function into 16 bits, and for
every byte buffer, flipping any single bit of any byte changes the computed
CRC-16. -/
theorem crc16_deterministic_and_detects_bit_flips :
    (∀ bs bs' : List Nat, bs = bs' → Crc16.compute bs = Crc16.compute bs') ∧
    (∀ bs : List Nat, Crc16.compute bs < 65536) ∧
    (∀ (bs : List Nat) (i j : Nat) (hi : i < bs.length), j < 8 →
      (∀ b ∈ bs, b < 256) →
      Crc16.compute (bs.set i (bs.get ⟨i, hi⟩ ^^^ 2 ^ j)) ≠ Crc16.compute bs) := by
  refine ⟨fun bs bs' h => congrArg _ h, fun bs => Crc16.compute_lt_aux bs 0 (by norm_num), ?_⟩
  intro bs i j hi hj _hbytes
  have h2j : (2 : Nat) ^ j < 2 ^ 8 := by
    have := Nat.pow_le_pow_right (show 1 ≤ 2 by norm_num) (show j ≤ 7 by omega)
    omega
  apply Crc16.foldl_set_ne bs i _ 0 (by norm_num) hi
  rw [show (256 : Nat) = 2 ^ 8 from rfl, Nat.xor_mod_two_pow,
    Nat.mod_eq_of_lt h2j]
  intro hcontra
  have h0 := Nat.xor_left_cancel (bs.get ⟨i, hi⟩ % 2 ^ 8) (2 ^ j) 0
    (by rw [Nat.xor_zero]; exact hcontra)
  exact absurd h0 (Nat.pos_iff_ne_zero.mp (Nat.pow_pos (by norm_num)))

/-- Witness for C8: flipping bit 0 of the middle byte of `[1, 2, 3]`
changes the CRC. -/
theorem crc16_deterministic_and_detects_bit_flips_witness :
    Crc16.compute (([1, 2, 3] : List Nat).set 1
        (([1, 2, 3] : List Nat).get ⟨1, by norm_num⟩ ^^^ 2 ^ 0)) ≠
      Crc16.compute [1, 2, 3] :=
  crc16_deterministic_and_detects_bit_flips.2.2 [1, 2, 3] 1 0 (by norm_num)
    (by norm_num) (by decide)

theorem FrameCodec.b64DecChar_encChar :
    ∀ v < 64, b64DecChar (b64EncChar v) = some v := by decide

theorem FrameCodec.b64EncChar_ne_61 : ∀ v < 64, b64EncChar v ≠ 61 := by decide

theorem FrameCodec.b64_roundtrip : ∀ bs : List Nat, (∀ b ∈ bs, b < 256) →
    b64Decode (b64Encode bs) = some bs
  | [], _ => rfl
  | [a], h => by
    have ha : a < 256 := h a (by simp)
    have d1 := b64DecChar_encChar (a / 4) (by omega)
    have d2 := b64DecChar_encChar (a % 4 * 16) (by omega)
    simp only [b64Encode, b64Decode, d1, d2]
    simp only [and_self, if_true, Option.some.injEq, List.cons.injEq, and_true]
    omega
  | [a, b], h => by
    have ha : a < 256 := h a (by simp)
    have hb : b < 256 := h b (by simp)
    have d1 := b64DecChar_encChar (a / 4) (by omega)
    have d2 := b64DecChar_encChar (a % 4 * 16 + b / 16) (by omega)
    have d3 := b64DecChar_encChar (b % 16 * 4) (by omega)
    have n3 := b64EncChar_ne_61 (b % 16 * 4) (by omega)
    simp only [b64Encode, b64Decode, d1, d2, if_neg n3, d3]
    simp only [if_true, Option.some.injEq, List.cons.injEq, and_true]
    omega
  | a :: b :: c :: rest, h => by
    have ha : a < 256 := h a (by simp)
    have hb : b < 256 := h b (by simp)
    have hc : c < 256 := h c (by simp)
    have d1 := b64DecChar_encChar (a / 4) (by omega)
    have d2 := b64DecChar_encChar (a % 4 * 16 + b / 16) (by omega)
    have d3 := b64DecChar_encChar (b % 16 * 4 + c / 64) (by omega)
    have d4 := b64DecChar_encChar (c % 64) (by omega)
    have n3 := b64EncChar_ne_61 (b % 16 * 4 + c / 64) (by omega)
    have n4 := b64EncChar_ne_61 (c % 64) (by omega)
    have ih := b64_roundtrip rest (fun x hx => h x (by simp [hx]))
    simp only [b64Encode, b64Decode, d1, d2, if_neg n3, d3, if_neg n4, d4, ih,
      Option.map_some', Option.some.injEq, List.cons.injEq, and_true]
    omega

theorem FrameCodec.chunksOf_flatten (k : Nat) :
    ∀ l : List Nat, (chunksOf k l).flatten = l
  | [] => by simp [chunksOf]
  | a :: rest => by
    simp only [chunksOf, List.flatten_cons, chunksOf_flatten k (rest.drop (k - 1))]
    simp [List.take_append_drop]
termination_by l => l.length
decreasing_by simp only [List.length_drop, List.length_cons]; omega

theorem FrameCodec.b64Encode_ne_nil (x : Nat) (xs : List Nat) :
    b64Encode (x :: xs) ≠ [] := by
  match xs with
  | [] => simp [b64Encode]
  | [y] => simp [b64Encode]
  | y :: z :: zs => simp [b64Encode]

theorem FrameCodec.stripLine_mk (x y : Nat) (c : List Nat) :
    stripLine [x, y] ([x, y] ++ c ++ [10]) = some c := by
  have h2 : [x, y] ++ c ++ [10] = (x :: y :: c) ++ [10] := by simp
  have h3 : ([x, y] ++ c ++ [10]).getLast? = some 10 := by
    rw [h2, List.getLast?_concat]
  unfold stripLine
  rw [if_pos ⟨rfl, h3⟩]
  have h4 : ([x, y] ++ c ++ [10]).drop 2 = c ++ [10] := rfl
  rw [h4, List.dropLast_concat]

theorem FrameCodec.mapM_stripLine (x y : Nat) (cs : List (List Nat)) :
    (cs.map (fun c => [x, y] ++ c ++ [10])).mapM (stripLine [x, y]) = some cs := by
  induction cs with
  | nil => rfl
  | cons c t ih =>
    simp only [List.map_cons, List.mapM_cons, stripLine_mk, ih,
      Option.bind_eq_bind, Option.some_bind]
    rfl

/-- C1: for every 8-byte header, every body of length at most 8192, and
every line-length limit of at least 4 (marker, one character, newline),
joining the lines produced by splitting recovers exactly the original
header and body. -/
theorem FrameCodec.frame_roundtrip (hdr body : List Nat) (linelength : Nat)
    (hh : hdr.length = 8)
    (hhb : ∀ b ∈ hdr, b < 256) (hbb : ∀ b ∈ body, b < 256)
    (hlen : body.length ≤ 8192) (hll : 4 ≤ linelength) :
    join (split linelength hdr body) = some (hdr, body) := by
  have hdl : (hdr ++ body).length = 8 + body.length := by simp [hh]
  have hsb : ∀ b ∈ ((hdr ++ body).length / 256 % 256 ::
      (hdr ++ body).length % 256 :: (hdr ++ body)), b < 256 := by
    intro b hb
    simp only [List.mem_cons, List.mem_append] at hb
    rcases hb with rfl | rfl | h | h
    · exact Nat.mod_lt _ (by norm_num)
    · exact Nat.mod_lt _ (by norm_num)
    · exact hhb b h
    · exact hbb b h
  have hdec := b64_roundtrip _ hsb
  cases htext : b64Encode ((hdr ++ body).length / 256 % 256 ::
      (hdr ++ body).length % 256 :: (hdr ++ body)) with
  | nil => exact absurd htext (b64Encode_ne_nil _ _)
  | cons t0 ts =>
  rw [htext] at hdec
  cases hch : chunksOf (linelength - 3) (t0 :: ts) with
  | nil => simp [chunksOf] at hch
  | cons c cs =>
  have hsplit : split linelength hdr body =
      ([6, 9] ++ c ++ [10]) :: cs.map (fun c2 => [4, 20] ++ c2 ++ [10]) := by
    simp only [split, htext, hch]
  rw [hsplit]
  have hflat : c ++ cs.flatten = t0 :: ts := by
    have h1 := chunksOf_flatten (linelength - 3) (t0 :: ts)
    rw [hch] at h1
    simpa [List.flatten_cons] using h1
  simp only [join, stripLine_mk, mapM_stripLine, hflat, hdec]
  have hlc : (hdr ++ body).length =
      (hdr ++ body).length / 256 % 256 * 256 + (hdr ++ body).length % 256 := by
    omega
  rw [if_pos hlc]
  rw [← hh, List.take_left, List.drop_left]

/-- Witness for C1: an 8-byte reset-style header with an empty body
round-trips at line length 128. -/
theorem frame_roundtrip_witness :
    FrameCodec.join (FrameCodec.split 128 [2, 0, 0, 1, 0, 1, 66, 0] []) =
      some ([2, 0, 0, 1, 0, 1, 66, 0], []) :=
  FrameCodec.frame_roundtrip [2, 0, 0, 1, 0, 1, 66, 0] [] 128 (by norm_num)
    (by decide) (by simp) (by norm_num) (by norm_num)

/-- C2: for every valid combination of header field values, decoding the
8-byte encoding returns the original header: `decode (encode h) = h`. -/
theorem nmpHdr_decode_encode (h : NmpHdr) (hv : h.valid) :
    NmpHdr.decode (NmpHdr.encode h) = some h := by
  obtain ⟨op, flags, len, group, seq, id⟩ := h
  simp only [NmpHdr.valid] at hv
  obtain ⟨hf, hl, hg, hs, hi⟩ := hv
  have hop : op.toNat < 4 := by cases op <;> simp [NmpOp.toNat]
  have hdiv : (op.toNat * 32 + flags % 32) / 32 % 8 = op.toNat := by omega
  have hmod : (op.toNat * 32 + flags % 32) % 32 = flags := by omega
  have hofNat : NmpOp.ofNat? op.toNat = some op := by cases op <;> rfl
  have h1 : len / 256 % 256 * 256 + len % 256 = len := by omega
  have h2 : group / 256 % 256 * 256 + group % 256 = group := by omega
  simp only [NmpHdr.encode, NmpHdr.decode, hdiv, hmod, hofNat, h1, h2,
    Nat.mod_eq_of_lt hs, Nat.mod_eq_of_lt hi]

/-- Witness for C2 at a concrete header. -/
theorem nmpHdr_decode_encode_witness :
    NmpHdr.decode (NmpHdr.encode ⟨.writeReq, 9, 300, 1, 77, 1⟩) =
      some ⟨.writeReq, 9, 300, 1, 77, 1⟩ :=
  nmpHdr_decode_encode ⟨.writeReq, 9, 300, 1, 77, 1⟩ (by decide)

/-- C9: the `SerialSpecs` value the CLI constructs copies each of the seven
CLI fields into the like-named field unchanged. -/
theorem serialSpecs_fromCli_copies_fields (cli : Cli) :
    (SerialSpecs.fromCli cli).device = cli.device ∧
    (SerialSpecs.fromCli cli).initial_timeout_s = cli.initial_timeout_s ∧
    (SerialSpecs.fromCli cli).subsequent_timeout_ms = cli.subsequent_timeout_ms ∧
    (SerialSpecs.fromCli cli).nb_retry = cli.nb_retry ∧
    (SerialSpecs.fromCli cli).linelength = cli.linelength ∧
    (SerialSpecs.fromCli cli).mtu = cli.mtu ∧
    (SerialSpecs.fromCli cli).baudrate = cli.baudrate :=
  ⟨rfl, rfl, rfl, rfl, rfl, rfl, rfl⟩

/-- C10: an invalid-hex hash makes the Test arm fail before `test` is
called; a valid-hex hash calls `test` with exactly the decoded bytes and
the confirm flag passed through unchanged. -/
theorem testCommand_hex_gate (hash : String) (confirm : Option Bool) :
    (hexDecode hash = none → runTestCommand hash confirm = TestOutcome.hexError) ∧
    (∀ bytes, hexDecode hash = some bytes →
      runTestCommand hash confirm = TestOutcome.called bytes confirm) := by
  constructor
  · intro hnone
    simp [runTestCommand, hnone]
  · intro bytes hsome
    simp [runTestCommand, hsome]

/-- Witness for C10: `"zz"` is rejected before `test` is reached, and
`"deadbeef"` reaches `test` as the four decoded bytes with the confirm
flag intact. -/
theorem testCommand_hex_gate_witness :
    runTestCommand "zz" none = TestOutcome.hexError ∧
    runTestCommand "deadbeef" (some true) =
      TestOutcome.called [222, 173, 190, 239] (some true) :=
  ⟨(testCommand_hex_gate "zz" none).1 (by rfl),
   (testCommand_hex_gate "deadbeef" (some true)).2 [222, 173, 190, 239] (by rfl)⟩

theorem sendReceiveGo_exhaust (tr : Nat → Option NmpReply) (seq : Nat)
    (h : ∀ i r, tr i = some r → r.seq ≠ seq) :
    ∀ n used, sendReceiveGo tr seq n used =
      ⟨.error .noResponse, used + n, List.replicate n seq⟩ := by
  intro n
  induction n with
  | zero => intro used; simp [sendReceiveGo]
  | succ n ih =>
    intro used
    cases htr : tr used with
    | none =>
      simp only [sendReceiveGo, htr, ih (used + 1), List.replicate_succ,
        SendReceiveResult.mk.injEq]
      exact ⟨by trivial, by omega, by trivial⟩
    | some rep =>
      simp only [sendReceiveGo, htr, if_neg (h used rep htr), ih (used + 1),
        List.replicate_succ, SendReceiveResult.mk.injEq]
      exact ⟨by trivial, by omega, by trivial⟩

/-- C3: with `nb_retry = N` and a transport that never replies,
`send_receive` performs exactly `N` attempts — each writing the frame with
the request's sequence id — and then fails with `NoResponse`. -/
theorem send_receive_retry_budget (tr : Nat → Option NmpReply) (seq N : Nat)
    (hsilent : ∀ i, tr i = none) :
    send_receive tr seq N =
      ⟨.error .noResponse, N, List.replicate N seq⟩ := by
  have h : ∀ i r, tr i = some r → r.seq ≠ seq := by
    intro i r hir
    rw [hsilent i] at hir
    exact absurd hir (by simp)
  have hgo := sendReceiveGo_exhaust tr seq h N 0
  simpa [send_receive] using hgo

/-- Witness for C3 at a concrete silent transport and budget 3. -/
theorem send_receive_retry_budget_witness :
    send_receive (fun _ => none) 7 3 =
      ⟨.error .noResponse, 3, List.replicate 3 7⟩ :=
  send_receive_retry_budget (fun _ => none) 7 3 (fun _ => rfl)

theorem sendReceiveGo_sent_all_seq (tr : Nat → Option NmpReply) (seq : Nat) :
    ∀ n used s, s ∈ (sendReceiveGo tr seq n used).sent → s = seq := by
  intro n
  induction n with
  | zero => intro used s hs; simp [sendReceiveGo] at hs
  | succ n ih =>
    intro used s hs
    cases htr : tr used with
    | none =>
      simp only [sendReceiveGo, htr] at hs
      rcases List.mem_cons.mp hs with h | h
      · exact h
      · exact ih (used + 1) s h
    | some rep =>
      by_cases hseq : rep.seq = seq
      · simp only [sendReceiveGo, htr, if_pos hseq] at hs
        simpa using hs
      · simp only [sendReceiveGo, htr, if_neg hseq] at hs
        rcases List.mem_cons.mp hs with h | h
        · exact h
        · exact ih (used + 1) s h

/-- C6: a reply with a foreign sequence id is discarded — the retry loop
runs its full budget and fails with `NoResponse`; every frame written
during one logical request carries the same sequence id; and the session's
sequence ids advance monotonically modulo 256 across logical requests. -/
theorem sequence_discipline :
    (∀ (tr : Nat → Option NmpReply) (seq N : Nat),
      (∀ i r, tr i = some r → r.seq ≠ seq) →
      (send_receive tr seq N).result = .error .noResponse ∧
        (send_receive tr seq N).attempts = N) ∧
    (∀ (tr : Nat → Option NmpReply) (seq N s : Nat),
      s ∈ (send_receive tr seq N).sent → s = seq) ∧
    (∀ s0 k : Nat, s0 < 256 → nextSeq^[k] s0 = (s0 + k) % 256) := by
  refine ⟨?_, ?_, ?_⟩
  · intro tr seq N h
    rw [send_receive, sendReceiveGo_exhaust tr seq h N 0]
    exact ⟨rfl, by simp⟩
  · intro tr seq N s hs
    exact sendReceiveGo_sent_all_seq tr seq N 0 s hs
  · intro s0 k h
    induction k with
    | zero => simpa using (Nat.mod_eq_of_lt h).symm
    | succ k ih =>
      rw [Function.iterate_succ_apply', ih, nextSeq]
      omega

/-- Witness for C6: a transport that always answers with sequence id 1
never satisfies a request with sequence id 2 (budget 2 is exhausted), the
trace of a silent budget-1 request carries the request's id, and the
session counter wraps 255 → 2 after three advances. -/
theorem sequence_discipline_witness :
    ((send_receive (fun _ => some ⟨1, []⟩) 2 2).result =
        .error .noResponse ∧
      (send_receive (fun _ => some ⟨1, []⟩) 2 2).attempts = 2) ∧
    (2 : Nat) = 2 ∧
    nextSeq^[3] 255 = (255 + 3) % 256 :=
  ⟨sequence_discipline.1 (fun _ => some ⟨1, []⟩) 2 2
      (fun _ r hr => by cases hr; decide),
   sequence_discipline.2.1 (fun _ => none) 2 1 2 (by decide),
   sequence_discipline.2.2 255 3 (by norm_num)⟩

/-- C7: when the write of the reset request succeeds, reset returns
success whatever the subsequent read does — in particular when the read
fails immediately because the device rebooted — and never an error. -/
theorem reset_read_failure_is_success :
    ∀ (e : NmpError) (r : Except NmpError NmpReply),
      reset (.ok ()) (.error e) = .ok () ∧ reset (.ok ()) r = .ok () :=
  fun _ r => ⟨rfl, by cases r <;> rfl⟩

theorem uploadLoop_done (device : Nat → Nat → Option Nat)
    (cap total fuel off : Nat) (h : total ≤ off) :
    uploadLoop device cap total (Nat.succ fuel) off = (some off, []) := by
  simp only [uploadLoop, if_pos h]

theorem uploadLoop_progress_some (device : Nat → Nat → Option Nat)
    (cap total fuel off K : Nat) (hoff : off < total)
    (hdev : device off (min cap (total - off)) = some K) :
    uploadLoop device cap total (Nat.succ fuel) off =
      ((uploadLoop device cap total fuel K).1,
       (off, min cap (total - off)) :: (uploadLoop device cap total fuel K).2) := by
  simp only [uploadLoop, if_neg (by omega : ¬ total ≤ off), hdev]

theorem uploadLoop_progress_none (device : Nat → Nat → Option Nat)
    (cap total fuel off : Nat) (hoff : off < total)
    (hdev : device off (min cap (total - off)) = none) :
    uploadLoop device cap total (Nat.succ fuel) off =
      (none, [(off, min cap (total - off))]) := by
  simp only [uploadLoop, if_neg (by omega : ¬ total ≤ off), hdev]

/-- C4: after the device reports next-expected offset `K` in its upload
response, the orchestrator's next chunk starts at `K` (when `K < total`;
at `K = total` the transfer is complete and no further chunk is sent) —
not at the locally tracked offset. -/
theorem upload_resumes_at_device_offset
    (device : Nat → Nat → Option Nat) (cap total fuel off K : Nat)
    (hoff : off < total)
    (hdev : device off (min cap (total - off)) = some K) :
    (uploadLoop device cap total (fuel + 2) off).2.head? =
        some (off, min cap (total - off)) ∧
    (uploadLoop device cap total (fuel + 2) off).2.tail.head? =
      (if K < total then some (K, min cap (total - K)) else none) := by
  rw [show fuel + 2 = Nat.succ (fuel + 1) from rfl,
    uploadLoop_progress_some device cap total (fuel + 1) off K hoff hdev]
  refine ⟨rfl, ?_⟩
  show (uploadLoop device cap total (fuel + 1) K).2.head? = _
  by_cases hK : K < total
  · rw [if_pos hK, show fuel + 1 = Nat.succ fuel from rfl]
    cases hdev2 : device K (min cap (total - K)) with
    | none =>
      rw [uploadLoop_progress_none device cap total fuel K hK hdev2]
      rfl
    | some nxt =>
      rw [uploadLoop_progress_some device cap total fuel K nxt hK hdev2]
      rfl
  · rw [if_neg hK, show fuel + 1 = Nat.succ fuel from rfl,
      uploadLoop_done device cap total fuel K (by omega)]
    rfl

/-- Witness for C4: the device acknowledges offset 2 for a chunk sent at
offset 0; the next chunk starts at 2. -/
theorem upload_resumes_at_device_offset_witness :
    (uploadLoop (fun _ _ => some 2) 4 10 2 0).2.head? =
        some (0, min 4 (10 - 0)) ∧
    (uploadLoop (fun _ _ => some 2) 4 10 2 0).2.tail.head? =
      (if 2 < 10 then some (2, min 4 (10 - 2)) else none) :=
  upload_resumes_at_device_offset (fun _ _ => some 2) 4 10 0 0 2
    (by norm_num) rfl

theorem ceil_div_succ (r cap : Nat) (hcap : 1 ≤ cap) (hr : 1 ≤ r) :
    (r + cap - 1) / cap = (r - 1) / cap + 1 := by
  have h : cap ≤ r + cap - 1 := by omega
  rw [Nat.div_eq_sub_div (by omega) h]
  have h2 : r + cap - 1 - cap = r - 1 := by omega
  rw [h2]

theorem uploadLoop_ack (device : Nat → Nat → Option Nat) (cap total : Nat)
    (hcap : 1 ≤ cap) (hack : ∀ off len, device off len = some (off + len)) :
    ∀ fuel off, off ≤ total → (total - off + cap - 1) / cap < fuel →
      (uploadLoop device cap total fuel off).1 = some total ∧
      (uploadLoop device cap total fuel off).2.length =
        (total - off + cap - 1) / cap := by
  intro fuel
  induction fuel with
  | zero => intro off _ hf; exact absurd hf (Nat.not_lt_zero _)
  | succ fuel ih =>
    intro off hoff hf
    by_cases hdone : total ≤ off
    · have heq : off = total := le_antisymm hoff hdone
      subst heq
      simp only [uploadLoop, if_pos hdone]
      refine ⟨by trivial, ?_⟩
      rw [Nat.sub_self]
      exact (Nat.div_eq_of_lt (by omega)).symm
    · have hlt : off < total := by omega
      by_cases hA : cap ≤ total - off
      · have hmin : min cap (total - off) = cap := min_eq_left hA
        have hsub : total - (off + cap) + cap - 1 = total - off - 1 := by omega
        have hceil : (total - off + cap - 1) / cap = (total - off - 1) / cap + 1 :=
          ceil_div_succ (total - off) cap hcap (by omega)
        have hf2 : (total - off - 1) / cap < fuel := by
          rw [hceil] at hf; omega
        have hih := ih (off + cap) (by omega) (by rw [hsub]; exact hf2)
        simp only [uploadLoop, if_neg hdone, hack, hmin]
        refine ⟨hih.1, ?_⟩
        simp only [List.length_cons, hih.2, hsub, hceil]
      · have hB : total - off < cap := by omega
        have hmin : min cap (total - off) = total - off := min_eq_right (by omega)
        have hnext : off + (total - off) = total := by omega
        have hfuel1 : 1 ≤ fuel := by
          have h1 : 1 ≤ (total - off + cap - 1) / cap :=
            (Nat.one_le_div_iff (by omega)).mpr (by omega)
          omega
        have hih := ih total (le_refl total) (by
          rw [Nat.sub_self]
          calc (0 + cap - 1) / cap = 0 := Nat.div_eq_of_lt (by omega)
          _ < fuel := by omega)
        simp only [uploadLoop, if_neg hdone, hack, hmin, hnext]
        refine ⟨hih.1, ?_⟩
        simp only [List.length_cons, hih.2, Nat.sub_self]
        rw [Nat.div_eq_of_lt (by omega : 0 + cap - 1 < cap)]
        rw [ceil_div_succ (total - off) cap hcap (by omega)]
        rw [Nat.div_eq_of_lt (by omega : total - off - 1 < cap)]

/-- C5: for an image of length `total` and MTU `mtu`, against a device
that acknowledges each chunk, the orchestrator issues `ceil(total/mtu)` or
fewer chunks and terminates successfully with final offset exactly
`total`. -/
theorem upload_completion (device : Nat → Nat → Option Nat)
    (mtu total fuel : Nat) (hmtu : 1 ≤ mtu)
    (hack : ∀ off len, device off len = some (off + len))
    (hfuel : (total + mtu - 1) / mtu < fuel) :
    (uploadLoop device mtu total fuel 0).1 = some total ∧
    (uploadLoop device mtu total fuel 0).2.length ≤ (total + mtu - 1) / mtu := by
  have h := uploadLoop_ack device mtu total hmtu hack fuel 0 (Nat.zero_le _)
    (by simpa using hfuel)
  refine ⟨h.1, ?_⟩
  rw [h.2, Nat.sub_zero]

/-- Witness for C5: a 1000-byte image with MTU 400 uploads in at most
`ceil(1000/400) = 3` chunks and ends at offset 1000. -/
theorem upload_completion_witness :
    (uploadLoop (fun off len => some (off + len)) 400 1000 4 0).1 = some 1000 ∧
    (uploadLoop (fun off len => some (off + len)) 400 1000 4 0).2.length ≤
      (1000 + 400 - 1) / 400 :=
  upload_completion (fun off len => some (off + len)) 400 1000 4
    (by norm_num) (fun _ _ => rfl) (by norm_num)
